import Mathlib

/-!
# Verification of the rotation-circuit compiler

A shallow embedding of `RotationCompiler.py`: the `RotationCircuit` engine
compiles a real-valued function of weighted bit-subsets into a table of
multi-controlled rotation coefficients (a Möbius transform over the Boolean
subset lattice), offers two greedy pruning procedures (error-budgeted and
cost-budgeted), and an evaluator with exhaustive error statistics.

Real numbers are modelled by `ℚ` (the source uses floating point; all the
stated properties are about the exact arithmetic the algorithms perform).
A Python `frozenset` of bit indices is a `Finset ℕ`; the circuit dictionary
is an association list `List (Finset ℕ × ℚ)` (insertion-ordered, like a
Python dict).  Enumeration order of `possible_inputs` (by Hamming weight,
as in the source) is preserved; none of the verified properties depend on
the tie-breaking order inside one Hamming-weight layer.
-/

/-- One circuit entry: a control-qubit set together with its rotation value. -/
abbrev Gate : Type := Finset ℕ × ℚ

/-- The circuit dictionary: an insertion-ordered association list. -/
abbrev Circuit : Type := List Gate

/-- `compute_value_of`: sum of the bit weights selected by `input`
(`input_value += self.bit_weigts[bit]`). -/
def compute_value_of (w : List ℚ) (input : Finset ℕ) : ℚ :=
  ∑ bit ∈ input, w.getD bit 0

/-- `itertools.combinations`: the subsets of `{0,…,n-1}` of the given
cardinality, as a concrete enumeration. -/
def combosOfCard : ℕ → ℕ → List (Finset ℕ)
  | _, 0 => [∅]
  | 0, _ + 1 => []
  | n + 1, k + 1 =>
    combosOfCard n (k + 1) ++ (combosOfCard n k).map (insert n)

/-- `possible_inputs`: all subsets of `{0,…,n-1}` enumerated by increasing
Hamming weight (`for hamming_weight in range(0, n+1): for input in
combinations(...)`). -/
def possible_inputs (n : ℕ) : List (Finset ℕ) :=
  (List.range (n + 1)).flatMap fun hamming_weight =>
    combosOfCard n hamming_weight

/-- The initial lookup table of `compile` (before the subtraction passes):
`circuit[len(input)][input] = self.function(input_value)`. -/
def rawTable (w : List ℚ) (f : ℚ → ℚ) : Finset ℕ → ℚ :=
  fun input => f (compute_value_of w input)

/-- One layer of the in-place subtraction pass of `compile`: for every set
`S` of cardinality `layer` and every strictly higher-layer set `T ⊇ S`,
`circuit[T] -= circuit[S]`.  Within the pass, layer-`layer` values are
read but never written, so the per-gate loop is this batch update. -/
def subtractLayer (layer : ℕ) (tbl : Finset ℕ → ℚ) : Finset ℕ → ℚ :=
  fun T =>
    if layer < T.card then tbl T - ∑ S ∈ T.powersetCard layer, tbl S
    else tbl T

/-- The fully transformed table of `compile`: the subtraction passes for
layers `0,…,n-1` applied to the raw lookup table. -/
def compiledFun (n : ℕ) (w : List ℚ) (f : ℚ → ℚ) : Finset ℕ → ℚ :=
  (List.range n).foldl (fun tbl layer => subtractLayer layer tbl) (rawTable w f)

/-- The reassembled circuit dictionary stored by `compile`
(`self.circuit.update(layer)` over the layers, i.e. keys in
`possible_inputs` order, values from the transformed table). -/
def compiledCircuit (n : ℕ) (w : List ℚ) (f : ℚ → ℚ) : Circuit :=
  (possible_inputs n).map fun input => (input, compiledFun n w f input)

/-- The engine state: weights, register size, target function, current
circuit dictionary, and the recompilation flag. -/
structure RotationCircuit where
  bit_weigts : List ℚ
  register_size : ℕ
  function : ℚ → ℚ
  circuit : Circuit
  needs_recompilation : Bool

namespace RotationCircuit

/-- `compile`: rebuild the exact circuit from the weights and the target
function; the other fields (including `needs_recompilation`) are untouched
by the method body. -/
def compile (c : RotationCircuit) : RotationCircuit :=
  { c with circuit := compiledCircuit c.register_size c.bit_weigts c.function }

/-- `__init__`: store the weights and the function, clear the
recompilation flag, and compile. -/
def init (bit_weigts : List ℚ) (function : ℚ → ℚ) : RotationCircuit :=
  compile { bit_weigts := bit_weigts
            register_size := bit_weigts.length
            function := function
            circuit := []
            needs_recompilation := false }

end RotationCircuit

/-- The Toffoli count of one gate: `max(2*(len(control_qubits)-1), 0)`. -/
def gateToffoli (control_qubits : Finset ℕ) : ℚ :=
  max (2 * ((control_qubits.card : ℚ) - 1)) 0

/-- `update_circuit_size`, first half: `self.toffoli_count`, the sum of
the per-gate Toffoli counts over the current circuit. -/
def toffoli_count (circuit : Circuit) : ℚ :=
  (circuit.map fun gate => gateToffoli gate.1).sum

/-- `update_circuit_size`, second half: `self.ancilla_count =
max(np.max([len(S) for S in keys])-1, 0)`.  `np.max` of an empty list is
an error, hence the `Option`: `none` models that failure. -/
def ancilla_count (circuit : Circuit) : Option ℚ :=
  ((circuit.map fun gate => (gate.1.card : ℚ)).max?).map fun m => max (m - 1) 0

/-- The sort key of both pruning procedures:
`abs(gate[1]/(2*(len(gate[0])-1)))`, the contribution-to-cost ratio. -/
def efficiency (gate : Gate) : ℚ :=
  |gate.2 / (2 * ((gate.1.card : ℚ) - 1))|

/-- The while-loop of `approximate_up_to_an_error_of`, viewed from the
surviving list: pop gates from the front while the accumulated absolute
contribution stays within the bound; return the remaining list. -/
def dropWithinError (bound : ℚ) : ℚ → Circuit → Circuit
  | _, [] => []
  | current_error, gate :: rest =>
    if |gate.2| + current_error ≤ bound then
      dropWithinError bound (current_error + |gate.2|) rest
    else gate :: rest

/-- The gates the while-loop of `approximate_up_to_an_error_of` pops
(the removed gates): the complementary prefix of `dropWithinError`. -/
def poppedByError (bound : ℚ) : ℚ → Circuit → Circuit
  | _, [] => []
  | current_error, gate :: rest =>
    if |gate.2| + current_error ≤ bound then
      gate :: poppedByError bound (current_error + |gate.2|) rest
    else []

/-- The while-loop of `approximate_up_to_toffoli_count_of`: keep scanning
gates, adding each gate's Toffoli cost, until one would overflow the
budget; return the kept prefix (`approximate_circuit[:position]`). -/
def keptByToffoli (bound : ℚ) : ℚ → Circuit → Circuit
  | _, [] => []
  | current, gate :: rest =>
    let gateCount : ℚ := 2 * ((gate.1.card : ℚ) - 1)
    if bound < current + gateCount then []
    else gate :: keptByToffoli bound (current + gateCount) rest

namespace RotationCircuit

/-- `approximate_up_to_an_error_of`: recompile if needed, split off the
cheap gates (`len < 2`), sort the expensive ones ascending by efficiency
(Python's `sorted` is stable; `mergeSort` with a `≤` key matches), pop
low-efficiency gates while the accumulated error stays within the bound,
store `{**cheap, **dict(remaining)}` and set the recompilation flag. -/
def approximate_up_to_an_error_of (c₀ : RotationCircuit)
    (error_upper_bound : ℚ) : RotationCircuit :=
  let c := if c₀.needs_recompilation then c₀.compile else c₀
  let cheap_gates := c.circuit.filter fun gate => gate.1.card < 2
  let expensive_gates := c.circuit.filter fun gate => 2 ≤ gate.1.card
  let sorted_gates :=
    expensive_gates.mergeSort fun a b => decide (efficiency a ≤ efficiency b)
  { c with
    circuit := cheap_gates ++ dropWithinError error_upper_bound 0 sorted_gates
    needs_recompilation := true }

/-- `approximate_up_to_toffoli_count_of`: recompile if needed, split off
the cheap gates, sort the expensive ones *descending* by efficiency
(`reverse=True`, stable), keep the prefix fitting in the Toffoli budget,
store `{**cheap, **dict(kept)}` and set the recompilation flag. -/
def approximate_up_to_toffoli_count_of (c₀ : RotationCircuit)
    (maximum_toffoli_count : ℚ) : RotationCircuit :=
  let c := if c₀.needs_recompilation then c₀.compile else c₀
  let cheap_gates := c.circuit.filter fun gate => gate.1.card < 2
  let expensive_gates := c.circuit.filter fun gate => 2 ≤ gate.1.card
  let sorted_gates :=
    expensive_gates.mergeSort fun a b => decide (efficiency b ≤ efficiency a)
  { c with
    circuit := cheap_gates ++ keptByToffoli maximum_toffoli_count 0 sorted_gates
    needs_recompilation := true }

end RotationCircuit

/-- `evaluate_at`: sum the rotation values of all gates whose control set
is contained in the input `x`. -/
def evaluate_at (circuit : Circuit) (x : Finset ℕ) : ℚ :=
  ((circuit.filter fun gate => gate.1 ⊆ x).map fun gate => gate.2).sum

/-- The `current_error` of one loop iteration of
`compute_error_statistics`: the absolute difference between the simulated
rotation and the target function at the corresponding classical input. -/
def current_error_at (c : RotationCircuit) (input : Finset ℕ) : ℚ :=
  |evaluate_at c.circuit input -
    c.function (compute_value_of c.bit_weigts input)|

/-- One iteration of the loop of `compute_error_statistics`: accumulate
the current input's absolute error, update the largest error and its
achieving input on strict increase, and count the input.  The state is
`(accumulated_error, largest_error_so_far, at_input, number_of_inputs)`. -/
def errStep (c : RotationCircuit) (st : ℚ × ℚ × Finset ℕ × ℕ)
    (input : Finset ℕ) : ℚ × ℚ × Finset ℕ × ℕ :=
  let current_error := current_error_at c input
  ⟨st.1 + current_error,
   if st.2.1 < current_error then current_error else st.2.1,
   if st.2.1 < current_error then input else st.2.2.1,
   st.2.2.2 + 1⟩

namespace RotationCircuit

/-- `compute_error_statistics`: fold `errStep` over every possible input
starting from `(0, 0, {}, 0)`; return the average error, the largest
error and the input achieving it. -/
def compute_error_statistics (c : RotationCircuit) : ℚ × ℚ × Finset ℕ :=
  let r := (possible_inputs c.register_size).foldl (errStep c) (0, 0, ∅, 0)
  (r.1 / (r.2.2.2 : ℚ), r.2.1, r.2.2.1)

end RotationCircuit

/-- The states an engine can reach: construction followed by any sequence
of `compile`, `approximate_up_to_an_error_of` and
`approximate_up_to_toffoli_count_of` calls. -/
inductive Reachable : RotationCircuit → Prop
  | init (w : List ℚ) (f : ℚ → ℚ) : Reachable (RotationCircuit.init w f)
  | compile {c : RotationCircuit} : Reachable c → Reachable c.compile
  | pruneError {c : RotationCircuit} (ε : ℚ) :
      Reachable c → Reachable (c.approximate_up_to_an_error_of ε)
  | pruneCost {c : RotationCircuit} (m : ℚ) :
      Reachable c → Reachable (c.approximate_up_to_toffoli_count_of m)

/-- The gates `approximate_up_to_an_error_of` removes from a table that
does not require recompilation (the pops of its while-loop, whose absolute
rotation values are what `current_error` accumulates). -/
def removedByError (c : RotationCircuit) (ε : ℚ) : Circuit :=
  poppedByError ε 0
    ((c.circuit.filter fun gate => 2 ≤ gate.1.card).mergeSort
      fun a b => decide (efficiency a ≤ efficiency b))

/-- One pruning call (either entry point of the Approximator). -/
inductive PruneOp : Type where
  | toError (ε : ℚ)
  | toCost (m : ℚ)

/-- Apply a pruning call to an engine state. -/
def applyPrune : PruneOp → RotationCircuit → RotationCircuit
  | .toError ε, c => c.approximate_up_to_an_error_of ε
  | .toCost m, c => c.approximate_up_to_toffoli_count_of m

/-! ## Enumeration lemmas for `possible_inputs` -/

lemma mem_combosOfCard {n k : ℕ} {S : Finset ℕ} :
    S ∈ combosOfCard n k ↔ S ⊆ Finset.range n ∧ S.card = k := by
  induction n generalizing k S with
  | zero =>
    cases k with
    | zero =>
      simp only [combosOfCard, List.mem_singleton, Finset.card_eq_zero]
      exact ⟨fun h => ⟨h ▸ Finset.empty_subset _, h⟩, fun h => h.2⟩
    | succ k =>
      simp only [combosOfCard, List.not_mem_nil, false_iff, not_and]
      intro hsub hcard
      rw [Finset.range_zero, Finset.subset_empty] at hsub
      simp [hsub] at hcard
  | succ n ih =>
    cases k with
    | zero =>
      simp only [combosOfCard, List.mem_singleton, Finset.card_eq_zero]
      exact ⟨fun h => ⟨h ▸ Finset.empty_subset _, h⟩, fun h => h.2⟩
    | succ k =>
      simp only [combosOfCard, List.mem_append, List.mem_map, ih]
      constructor
      · rintro (⟨hsub, hcard⟩ | ⟨T, ⟨hsub, hcard⟩, rfl⟩)
        · exact ⟨hsub.trans (Finset.range_subset.mpr (Nat.le_succ n)), hcard⟩
        · have hn : n ∉ T := fun h => by
            simpa using hsub h
          refine ⟨Finset.insert_subset ?_
            (hsub.trans (Finset.range_subset.mpr (Nat.le_succ n))), ?_⟩
          · exact Finset.mem_range.mpr (Nat.lt_succ_self n)
          · rw [Finset.card_insert_of_not_mem hn, hcard]
      · rintro ⟨hsub, hcard⟩
        by_cases hn : n ∈ S
        · right
          refine ⟨S.erase n, ⟨?_, ?_⟩, Finset.insert_erase hn⟩
          · intro x hx
            have hxS := Finset.mem_of_mem_erase hx
            have hxn := Finset.ne_of_mem_erase hx
            have := Finset.mem_range.mp (hsub hxS)
            exact Finset.mem_range.mpr (by omega)
          · rw [Finset.card_erase_of_mem hn, hcard]
            omega
        · left
          refine ⟨fun x hx => ?_, hcard⟩
          have := Finset.mem_range.mp (hsub hx)
          have hxn : x ≠ n := fun h => hn (h ▸ hx)
          exact Finset.mem_range.mpr (by omega)

lemma nodup_combosOfCard (n k : ℕ) : (combosOfCard n k).Nodup := by
  induction n generalizing k with
  | zero =>
    cases k with
    | zero => simp [combosOfCard]
    | succ k => simp [combosOfCard]
  | succ n ih =>
    cases k with
    | zero => simp [combosOfCard]
    | succ k =>
      rw [combosOfCard, List.nodup_append]
      refine ⟨ih (k + 1), ?_, ?_⟩
      · refine List.Nodup.map_on ?_ (ih k)
        intro x hx y hy hxy
        have hxn : n ∉ x := fun h => by
          simpa using (mem_combosOfCard.mp hx).1 h
        have hyn : n ∉ y := fun h => by
          simpa using (mem_combosOfCard.mp hy).1 h
        calc x = (insert n x).erase n := (Finset.erase_insert hxn).symm
          _ = (insert n y).erase n := by rw [hxy]
          _ = y := Finset.erase_insert hyn
      · intro S hS hS'
        obtain ⟨T, _, rfl⟩ := List.mem_map.mp hS'
        have : n ∉ insert n T := fun h => by
          simpa using (mem_combosOfCard.mp hS).1 h
        exact this (Finset.mem_insert_self n T)

lemma mem_possible_inputs {n : ℕ} {S : Finset ℕ} :
    S ∈ possible_inputs n ↔ S ⊆ Finset.range n := by
  simp only [possible_inputs, List.mem_flatMap, List.mem_range, mem_combosOfCard]
  constructor
  · rintro ⟨k, _, hsub, _⟩
    exact hsub
  · intro hsub
    refine ⟨S.card, ?_, hsub, rfl⟩
    have := Finset.card_le_card hsub
    rw [Finset.card_range] at this
    omega

lemma nodup_possible_inputs (n : ℕ) : (possible_inputs n).Nodup := by
  rw [possible_inputs, List.nodup_flatMap]
  refine ⟨fun k _ => nodup_combosOfCard n k, ?_⟩
  refine (List.pairwise_lt_range (n + 1)).imp ?_
  intro i j hij S hS hS'
  have hi := (mem_combosOfCard.mp hS).2
  have hj := (mem_combosOfCard.mp hS').2
  omega

lemma toFinset_possible_inputs (n : ℕ) :
    (possible_inputs n).toFinset = (Finset.range n).powerset := by
  ext S
  simp [mem_possible_inputs]

lemma length_possible_inputs (n : ℕ) : (possible_inputs n).length = 2 ^ n := by
  rw [← List.toFinset_card_of_nodup (nodup_possible_inputs n),
    toFinset_possible_inputs, Finset.card_powerset, Finset.card_range]

lemma sum_map_possible_inputs {M : Type*} [AddCommMonoid M] (n : ℕ)
    (g : Finset ℕ → M) :
    ((possible_inputs n).map g).sum = ∑ x ∈ (Finset.range n).powerset, g x := by
  rw [← List.sum_toFinset g (nodup_possible_inputs n), toFinset_possible_inputs]

/-! ## The subtraction passes compute the Möbius transform -/

/-- The value the subtraction passes leave at each subset, characterised
recursively: the raw value minus the final values of all strict subsets. -/
def coeffRec (w : List ℚ) (f : ℚ → ℚ) (S : Finset ℕ) : ℚ :=
  rawTable w f S - ∑ T ∈ S.ssubsets.attach, coeffRec w f T.1
termination_by S.card
decreasing_by
  exact Finset.card_lt_card (Finset.mem_ssubsets.mp T.2)

lemma coeffRec_eq (w : List ℚ) (f : ℚ → ℚ) (S : Finset ℕ) :
    coeffRec w f S = rawTable w f S - ∑ T ∈ S.ssubsets, coeffRec w f T := by
  rw [coeffRec, ← Finset.sum_attach S.ssubsets (fun T => coeffRec w f T)]

lemma sum_powerset_coeffRec (w : List ℚ) (f : ℚ → ℚ) (S : Finset ℕ) :
    ∑ T ∈ S.powerset, coeffRec w f T = rawTable w f S := by
  have h1 : S.powerset = insert S S.ssubsets := by
    rw [Finset.ssubsets]
    exact (Finset.insert_erase (Finset.mem_powerset_self S)).symm
  have h2 : S ∉ S.ssubsets := by
    simp only [Finset.mem_ssubsets]
    exact fun h => absurd rfl (Finset.ssubset_iff_subset_ne.mp h).2
  rw [h1, Finset.sum_insert h2, coeffRec_eq]
  ring

lemma ssubsets_filter_split {S : Finset ℕ} {m : ℕ} (h : m < S.card)
    (g : Finset ℕ → ℚ) :
    ∑ T ∈ S.ssubsets with T.card < m + 1, g T =
      (∑ T ∈ S.ssubsets with T.card < m, g T) + ∑ T ∈ S.powersetCard m, g T := by
  have hsplit : S.ssubsets.filter (fun T => T.card < m + 1) =
      S.ssubsets.filter (fun T => T.card < m) ∪
        S.ssubsets.filter (fun T => T.card = m) := by
    rw [← Finset.filter_or]
    exact Finset.filter_congr fun T _ => by omega
  have hcardm : S.ssubsets.filter (fun T => T.card = m) = S.powersetCard m := by
    ext T
    simp only [Finset.mem_filter, Finset.mem_ssubsets, Finset.mem_powersetCard]
    constructor
    · rintro ⟨hss, hc⟩
      exact ⟨hss.subset, hc⟩
    · rintro ⟨hsub, hc⟩
      have hne : T ≠ S := fun he => by subst he; omega
      exact ⟨Finset.ssubset_iff_subset_ne.mpr ⟨hsub, hne⟩, hc⟩
  have hdisj : Disjoint (S.ssubsets.filter (fun T => T.card < m))
      (S.ssubsets.filter (fun T => T.card = m)) := by
    rw [Finset.disjoint_left]
    intro T h1 h2
    have := (Finset.mem_filter.mp h1).2
    have := (Finset.mem_filter.mp h2).2
    omega
  rw [hsplit, Finset.sum_union hdisj, hcardm]

lemma layered_spec (w : List ℚ) (f : ℚ → ℚ) (m : ℕ) (S : Finset ℕ) :
    (List.range m).foldl (fun tbl layer => subtractLayer layer tbl)
        (rawTable w f) S =
      if S.card ≤ m then coeffRec w f S
      else rawTable w f S - ∑ T ∈ S.ssubsets with T.card < m, coeffRec w f T := by
  induction m generalizing S with
  | zero =>
    simp only [List.range_zero, List.foldl_nil, Nat.le_zero, Finset.card_eq_zero]
    by_cases hS : S = ∅
    · subst hS
      rw [if_pos rfl, coeffRec_eq]
      simp [Finset.ssubsets]
    · rw [if_neg hS]
      have h0 : S.ssubsets.filter (fun T => T.card < 0) = ∅ := by
        apply Finset.filter_false_of_mem
        intro T _
        omega
      rw [h0]
      simp
  | succ m ih =>
    rw [List.range_succ, List.foldl_append, List.foldl_cons, List.foldl_nil]
    show subtractLayer m _ S = _
    rw [subtractLayer]
    have hsum : ∀ T ∈ S.powersetCard m,
        (List.range m).foldl (fun tbl layer => subtractLayer layer tbl)
          (rawTable w f) T = coeffRec w f T := by
      intro T hT
      have := (Finset.mem_powersetCard.mp hT).2
      rw [ih, if_pos (by omega)]
    have hrw : ∑ T ∈ S.powersetCard m,
        (List.range m).foldl (fun tbl layer => subtractLayer layer tbl)
          (rawTable w f) T = ∑ T ∈ S.powersetCard m, coeffRec w f T :=
      Finset.sum_congr rfl hsum
    rcases Nat.lt_trichotomy S.card (m + 1) with hc | hc | hc
    · have hnotlt : ¬ m < S.card := by omega
      have hle : S.card ≤ m := by omega
      rw [if_neg hnotlt, ih, if_pos hle, if_pos (by omega)]
    · have hlt : m < S.card := by omega
      rw [if_pos hlt, ih, if_neg (by omega), if_pos (by omega), hrw, coeffRec_eq]
      have hall : S.ssubsets.filter (fun T => T.card < m + 1) = S.ssubsets := by
        apply Finset.filter_true_of_mem
        intro T hT
        have := Finset.card_lt_card (Finset.mem_ssubsets.mp hT)
        omega
      have hsplit := ssubsets_filter_split hlt (coeffRec w f)
      rw [hall] at hsplit
      rw [hsplit]
      ring
    · have hlt : m < S.card := by omega
      rw [if_pos hlt, ih, if_neg (by omega), if_neg (by omega), hrw,
        ssubsets_filter_split hlt (coeffRec w f)]
      ring

lemma compiledFun_eq_coeffRec {n : ℕ} (w : List ℚ) (f : ℚ → ℚ)
    {S : Finset ℕ} (h : S.card ≤ n) :
    compiledFun n w f S = coeffRec w f S := by
  rw [compiledFun, layered_spec, if_pos h]

/-! ## Exactness of the compiled circuit and the closed Möbius form -/

lemma evaluate_at_compiledCircuit {n : ℕ} (w : List ℚ) (f : ℚ → ℚ)
    {x : Finset ℕ} (hx : x ⊆ Finset.range n) :
    evaluate_at (compiledCircuit n w f) x = f (compute_value_of w x) := by
  unfold evaluate_at compiledCircuit
  rw [List.filter_map, List.map_map]
  have hcomp : (((fun gate : Gate => gate.2)) ∘
      fun input => (input, compiledFun n w f input)) = compiledFun n w f := rfl
  rw [hcomp]
  have hnodup := (nodup_possible_inputs n).filter
    ((fun gate : Gate => decide (gate.1 ⊆ x)) ∘
      fun input => (input, compiledFun n w f input))
  rw [← List.sum_toFinset _ hnodup, List.toFinset_filter, toFinset_possible_inputs]
  have hps : (Finset.range n).powerset.filter
      (fun S => ((fun gate : Gate => decide (gate.1 ⊆ x)) ∘
        fun input => (input, compiledFun n w f input)) S = true) = x.powerset := by
    ext T
    simp only [Finset.mem_filter, Finset.mem_powerset, Function.comp_apply,
      decide_eq_true_eq]
    exact ⟨fun h => h.2, fun h => ⟨h.trans hx, h⟩⟩
  rw [hps]
  have hcf : ∀ T ∈ x.powerset, compiledFun n w f T = coeffRec w f T := by
    intro T hT
    refine compiledFun_eq_coeffRec w f ?_
    have h1 : T ⊆ Finset.range n := (Finset.mem_powerset.mp hT).trans hx
    have := Finset.card_le_card h1
    rwa [Finset.card_range] at this
  rw [Finset.sum_congr rfl hcf, sum_powerset_coeffRec]
  rfl

lemma qsum_powerset_neg_one_pow_card (x : Finset ℕ) :
    ∑ m ∈ x.powerset, (-1 : ℚ) ^ m.card = if x = ∅ then 1 else 0 := by
  have h := @Finset.sum_powerset_neg_one_pow_card ℕ _ x
  have hcast : ∑ m ∈ x.powerset, (-1 : ℚ) ^ m.card =
      ((∑ m ∈ x.powerset, (-1 : ℤ) ^ m.card : ℤ) : ℚ) := by
    push_cast
    rfl
  rw [hcast, h]
  split <;> norm_num

lemma inner_alt {S U : Finset ℕ} (hU : U ⊆ S) :
    ∑ T ∈ S.powerset with U ⊆ T, (-1 : ℚ) ^ (T.card - U.card) =
      if U = S then 1 else 0 := by
  have hbij : ∑ T ∈ S.powerset with U ⊆ T, (-1 : ℚ) ^ (T.card - U.card) =
      ∑ V ∈ (S \ U).powerset, (-1 : ℚ) ^ V.card := by
    refine Finset.sum_nbij' (fun T => T \ U) (fun V => U ∪ V) ?_ ?_ ?_ ?_ ?_
    · intro T hT
      obtain ⟨hTS, hUT⟩ := Finset.mem_filter.mp hT
      exact Finset.mem_powerset.mpr
        (Finset.sdiff_subset_sdiff (Finset.mem_powerset.mp hTS)
          (Finset.Subset.refl U))
    · intro V hV
      have hVS := Finset.mem_powerset.mp hV
      rw [Finset.subset_sdiff] at hVS
      refine Finset.mem_filter.mpr ⟨Finset.mem_powerset.mpr ?_, ?_⟩
      · exact Finset.union_subset hU (Finset.mem_powerset.mp hV |>.trans
          Finset.sdiff_subset)
      · exact Finset.subset_union_left
    · intro T hT
      obtain ⟨_, hUT⟩ := Finset.mem_filter.mp hT
      exact Finset.union_sdiff_of_subset hUT
    · intro V hV
      have hVS := Finset.mem_powerset.mp hV
      rw [Finset.subset_sdiff] at hVS
      exact Finset.union_sdiff_cancel_left hVS.2.symm
    · intro T hT
      obtain ⟨_, hUT⟩ := Finset.mem_filter.mp hT
      rw [Finset.card_sdiff hUT]
  rw [hbij, qsum_powerset_neg_one_pow_card]
  have hiff : S \ U = ∅ ↔ U = S := by
    rw [Finset.sdiff_eq_empty_iff_subset]
    exact ⟨fun h => Finset.Subset.antisymm hU h, fun h => h ▸ Finset.Subset.refl S⟩
  by_cases h : U = S
  · rw [if_pos (hiff.mpr h), if_pos h]
  · rw [if_neg (fun he => h (hiff.mp he)), if_neg h]

lemma zeta_alt (w : List ℚ) (f : ℚ → ℚ) (S : Finset ℕ) :
    ∑ T ∈ S.powerset, ∑ U ∈ T.powerset,
        (-1 : ℚ) ^ (T.card - U.card) * rawTable w f U = rawTable w f S := by
  have hswap : ∑ T ∈ S.powerset, ∑ U ∈ T.powerset,
      (-1 : ℚ) ^ (T.card - U.card) * rawTable w f U =
      ∑ U ∈ S.powerset, ∑ T ∈ S.powerset with U ⊆ T,
        (-1 : ℚ) ^ (T.card - U.card) * rawTable w f U := by
    refine Finset.sum_comm' ?_
    intro T U
    simp only [Finset.mem_powerset, Finset.mem_filter]
    constructor
    · rintro ⟨hTS, hUT⟩
      exact ⟨⟨hTS, hUT⟩, hUT.trans hTS⟩
    · rintro ⟨⟨hTS, hUT⟩, _⟩
      exact ⟨hTS, hUT⟩
  rw [hswap]
  have hinner : ∀ U ∈ S.powerset,
      ∑ T ∈ S.powerset with U ⊆ T,
        (-1 : ℚ) ^ (T.card - U.card) * rawTable w f U =
      if U = S then rawTable w f U else 0 := by
    intro U hU
    rw [← Finset.sum_mul, inner_alt (Finset.mem_powerset.mp hU)]
    by_cases h : U = S <;> simp [h]
  rw [Finset.sum_congr rfl hinner, Finset.sum_ite_eq' S.powerset S (rawTable w f),
    if_pos (Finset.mem_powerset_self S)]

lemma coeffRec_eq_alt (w : List ℚ) (f : ℚ → ℚ) (S : Finset ℕ) :
    coeffRec w f S =
      ∑ T ∈ S.powerset, (-1 : ℚ) ^ (S.card - T.card) * rawTable w f T := by
  induction S using Finset.strongInduction with
  | _ S ih =>
    have hss : ∑ T ∈ S.ssubsets, coeffRec w f T =
        ∑ T ∈ S.ssubsets, ∑ U ∈ T.powerset,
          (-1 : ℚ) ^ (T.card - U.card) * rawTable w f U :=
      Finset.sum_congr rfl fun T hT => ih T (Finset.mem_ssubsets.mp hT)
    have h1 : S.powerset = insert S S.ssubsets := by
      rw [Finset.ssubsets]
      exact (Finset.insert_erase (Finset.mem_powerset_self S)).symm
    have h2 : S ∉ S.ssubsets := by
      simp only [Finset.mem_ssubsets]
      exact fun h => absurd rfl (Finset.ssubset_iff_subset_ne.mp h).2
    have hz := zeta_alt w f S
    rw [h1, Finset.sum_insert h2] at hz
    rw [coeffRec_eq, hss]
    linarith [hz]

/-! ## Helper lemmas about the greedy scans and the evaluator -/

lemma popped_append_drop (b : ℚ) (a : ℚ) (l : Circuit) :
    poppedByError b a l ++ dropWithinError b a l = l := by
  induction l generalizing a with
  | nil => rfl
  | cons gate rest ih =>
    rw [poppedByError, dropWithinError]
    by_cases h : |gate.2| + a ≤ b
    · rw [if_pos h, if_pos h, List.cons_append, ih]
    · rw [if_neg h, if_neg h, List.nil_append]

lemma popped_sum_le {b : ℚ} (l : Circuit) {a : ℚ} (ha : a ≤ b) :
    a + ((poppedByError b a l).map fun gate => |gate.2|).sum ≤ b := by
  induction l generalizing a with
  | nil =>
    simp only [poppedByError, List.map_nil, List.sum_nil, add_zero]
    exact ha
  | cons gate rest ih =>
    rw [poppedByError]
    by_cases h : |gate.2| + a ≤ b
    · rw [if_pos h]
      have := ih (a := a + |gate.2|) (by linarith)
      simp only [List.map_cons, List.sum_cons]
      linarith
    · rw [if_neg h]
      simpa using ha

lemma kept_mem {b : ℚ} {gate : Gate} (l : Circuit) {a : ℚ}
    (h : gate ∈ keptByToffoli b a l) : gate ∈ l := by
  induction l generalizing a with
  | nil => simp [keptByToffoli] at h
  | cons g rest ih =>
    rw [keptByToffoli] at h
    by_cases hc : b < a + 2 * ((g.1.card : ℚ) - 1)
    · simp only [hc, if_pos] at h
      simp at h
    · rw [if_neg hc] at h
      rcases List.mem_cons.mp h with h | h
      · exact h ▸ List.mem_cons_self g rest
      · exact List.mem_cons_of_mem g (ih h)

lemma kept_cost_le {b : ℚ} (l : Circuit) {a : ℚ} (ha : a ≤ b) :
    a + ((keptByToffoli b a l).map
      fun gate => 2 * ((gate.1.card : ℚ) - 1)).sum ≤ b := by
  induction l generalizing a with
  | nil =>
    simp only [keptByToffoli, List.map_nil, List.sum_nil, add_zero]
    exact ha
  | cons gate rest ih =>
    rw [keptByToffoli]
    by_cases h : b < a + 2 * ((gate.1.card : ℚ) - 1)
    · rw [if_pos h]
      simpa using ha
    · rw [if_neg h]
      have := ih (a := a + 2 * ((gate.1.card : ℚ) - 1)) (by linarith)
      simp only [List.map_cons, List.sum_cons]
      linarith

lemma dropWithinError_of_neg {b : ℚ} (hb : b < 0) (l : Circuit) :
    dropWithinError b 0 l = l := by
  cases l with
  | nil => rfl
  | cons gate rest =>
    rw [dropWithinError, if_neg]
    intro h
    have := abs_nonneg gate.2
    linarith

lemma keptByToffoli_of_neg {b : ℚ} (hb : b < 0) (l : Circuit)
    (hl : ∀ gate ∈ l, 2 ≤ gate.1.card) :
    keptByToffoli b 0 l = [] := by
  cases l with
  | nil => rfl
  | cons gate rest =>
    rw [keptByToffoli, if_pos]
    have h2 : (2 : ℚ) ≤ (gate.1.card : ℚ) := by
      exact_mod_cast hl gate (List.mem_cons_self gate rest)
    have : (2 : ℚ) ≤ 2 * ((gate.1.card : ℚ) - 1) := by linarith
    linarith

lemma cheap_expensive_perm (l : Circuit) :
    ((l.filter fun gate => gate.1.card < 2) ++
      (l.filter fun gate => 2 ≤ gate.1.card)).Perm l := by
  have h : l.filter (fun gate => 2 ≤ gate.1.card) =
      l.filter (fun gate => !decide (gate.1.card < 2)) := by
    apply List.filter_congr
    intro gate _
    by_cases h2 : gate.1.card < 2
    · have : ¬ 2 ≤ gate.1.card := by omega
      simp [h2, this]
    · have : 2 ≤ gate.1.card := by omega
      simp [h2, this]
  rw [h]
  exact List.filter_append_perm _ l

lemma evaluate_at_append (l₁ l₂ : Circuit) (x : Finset ℕ) :
    evaluate_at (l₁ ++ l₂) x = evaluate_at l₁ x + evaluate_at l₂ x := by
  unfold evaluate_at
  rw [List.filter_append, List.map_append, List.sum_append]

lemma evaluate_at_perm {l₁ l₂ : Circuit} (h : l₁.Perm l₂) (x : Finset ℕ) :
    evaluate_at l₁ x = evaluate_at l₂ x := by
  unfold evaluate_at
  exact ((h.filter _).map _).sum_eq

lemma abs_evaluate_at_le (l : Circuit) (x : Finset ℕ) :
    |evaluate_at l x| ≤ (l.map fun gate => |gate.2|).sum := by
  induction l with
  | nil => simp [evaluate_at]
  | cons gate rest ih =>
    have hstep : evaluate_at (gate :: rest) x =
        (if gate.1 ⊆ x then gate.2 else 0) + evaluate_at rest x := by
      unfold evaluate_at
      rw [List.filter_cons]
      by_cases h : gate.1 ⊆ x <;> simp [h]
    rw [hstep]
    simp only [List.map_cons, List.sum_cons]
    have h1 : |(if gate.1 ⊆ x then gate.2 else 0)| ≤ |gate.2| := by
      by_cases h : gate.1 ⊆ x <;> simp [h, abs_nonneg]
    calc |(if gate.1 ⊆ x then gate.2 else 0) + evaluate_at rest x| ≤
        |(if gate.1 ⊆ x then gate.2 else 0)| + |evaluate_at rest x| :=
          abs_add _ _
      _ ≤ |gate.2| + (rest.map fun gate => |gate.2|).sum := by linarith

/-! ## Helper lemmas for the error statistics and the reachable states -/

lemma current_error_at_nonneg (c : RotationCircuit) (x : Finset ℕ) :
    0 ≤ current_error_at c x :=
  abs_nonneg _

lemma errStep_foldl_spec (c : RotationCircuit) (inputs : List (Finset ℕ))
    (a m : ℚ) (pos : Finset ℕ) (k : ℕ) (hm : 0 ≤ m) :
    (inputs.foldl (errStep c) (a, m, pos, k)).1 =
        a + (inputs.map fun x => current_error_at c x).sum ∧
    (inputs.foldl (errStep c) (a, m, pos, k)).2.2.2 = k + inputs.length ∧
    m ≤ (inputs.foldl (errStep c) (a, m, pos, k)).2.1 ∧
    (∀ x ∈ inputs,
      current_error_at c x ≤ (inputs.foldl (errStep c) (a, m, pos, k)).2.1) ∧
    (((inputs.foldl (errStep c) (a, m, pos, k)).2.1 = m ∧
        (inputs.foldl (errStep c) (a, m, pos, k)).2.2.1 = pos) ∨
      ((inputs.foldl (errStep c) (a, m, pos, k)).2.2.1 ∈ inputs ∧
        current_error_at c (inputs.foldl (errStep c) (a, m, pos, k)).2.2.1 =
          (inputs.foldl (errStep c) (a, m, pos, k)).2.1)) := by
  induction inputs generalizing a m pos k with
  | nil =>
    refine ⟨by simp, by simp, le_refl m, by simp, Or.inl ⟨rfl, rfl⟩⟩
  | cons x rest ih =>
    rw [List.foldl_cons]
    by_cases hlt : m < current_error_at c x
    · have hstep : errStep c (a, m, pos, k) x =
          (a + current_error_at c x, current_error_at c x, x, k + 1) := by
        simp [errStep, hlt]
      rw [hstep]
      obtain ⟨ih1, ih2, ih3, ih4, ih5⟩ :=
        ih (a + current_error_at c x) (current_error_at c x) x (k + 1)
          (current_error_at_nonneg c x)
      refine ⟨by rw [ih1, List.map_cons, List.sum_cons]; ring,
        by rw [ih2, List.length_cons]; omega,
        (le_of_lt hlt).trans ih3, ?_, ?_⟩
      · intro y hy
        rcases List.mem_cons.mp hy with rfl | hy
        · exact ih3
        · exact ih4 y hy
      · rcases ih5 with ⟨h1, h2⟩ | ⟨h1, h2⟩
        · right
          refine ⟨by rw [h2]; exact List.mem_cons_self x rest, ?_⟩
          rw [h2, h1]
        · exact Or.inr ⟨List.mem_cons_of_mem x h1, h2⟩
    · have hstep : errStep c (a, m, pos, k) x =
          (a + current_error_at c x, m, pos, k + 1) := by
        simp [errStep, hlt]
      rw [hstep]
      obtain ⟨ih1, ih2, ih3, ih4, ih5⟩ :=
        ih (a + current_error_at c x) m pos (k + 1) hm
      refine ⟨by rw [ih1, List.map_cons, List.sum_cons]; ring,
        by rw [ih2, List.length_cons]; omega, ih3, ?_, ?_⟩
      · intro y hy
        rcases List.mem_cons.mp hy with rfl | hy
        · exact (not_lt.mp hlt).trans ih3
        · exact ih4 y hy
      · refine ih5.imp id ?_
        rintro ⟨h1, h2⟩
        exact ⟨List.mem_cons_of_mem x h1, h2⟩

lemma ancilla_count_isSome {l : Circuit} (h : l ≠ []) :
    (ancilla_count l).isSome := by
  cases l with
  | nil => exact absurd rfl h
  | cons gate rest =>
    simp [ancilla_count, List.max?_cons]

lemma compiled_has_key {n : ℕ} (w : List ℚ) (f : ℚ → ℚ) {S : Finset ℕ}
    (hS : S ⊆ Finset.range n) :
    (S, compiledFun n w f S) ∈ compiledCircuit n w f :=
  List.mem_map.mpr ⟨S, mem_possible_inputs.mpr hS, rfl⟩

/-! ## Claim theorems -/

/-- C1: immediately after compilation (construction is `compile` applied
to the freshly initialised state, so it is the instance `c := ` that
initial state), for every subset `x` of `{0,…,n-1}`, `evaluate_at x` — the
sum of the rotation values of all stored gates `S ⊆ x` — equals the target
function applied to the summed weights of `x`. -/
theorem exact_table_evaluates_target (c : RotationCircuit) (x : Finset ℕ)
    (hx : x ⊆ Finset.range c.register_size) :
    evaluate_at c.compile.circuit x =
      c.function (compute_value_of c.bit_weigts x) :=
  evaluate_at_compiledCircuit c.bit_weigts c.function hx

/-- Witness for C1 at the engine compiled from weights `[1, 2]` and target
`v ↦ v²`, evaluated at `x = {0, 1}` (value `3`, so the result is `9`). -/
theorem exact_table_evaluates_target_witness :
    ({0, 1} : Finset ℕ) ⊆
        Finset.range (RotationCircuit.init [1, 2] fun v => v * v).register_size ∧
    evaluate_at (RotationCircuit.init [1, 2] fun v => v * v).compile.circuit
        {0, 1} =
      (RotationCircuit.init [1, 2] fun v => v * v).function
        (compute_value_of
          (RotationCircuit.init [1, 2] fun v => v * v).bit_weigts {0, 1}) :=
  ⟨by decide,
    exact_table_evaluates_target (RotationCircuit.init [1, 2] fun v => v * v)
      {0, 1} (by decide)⟩

/-- C6: after compilation the stored coefficient of every subset `S` of
`{0,…,n-1}` is the closed Möbius form
`Σ_{T ⊆ S} (−1)^(|S|−|T|) · f(Σ_{i∈T} weight[i])`: the layered in-place
subtraction pass (`compiledFun`) computes exactly this alternating sum,
and the pair is a stored entry of the compiled dictionary. -/
theorem compiled_coefficient_is_mobius_sum (n : ℕ) (w : List ℚ) (f : ℚ → ℚ)
    (S : Finset ℕ) (hS : S ⊆ Finset.range n) :
    compiledFun n w f S =
      (∑ T ∈ S.powerset,
        (-1 : ℚ) ^ (S.card - T.card) * f (compute_value_of w T)) ∧
    (S, ∑ T ∈ S.powerset,
        (-1 : ℚ) ^ (S.card - T.card) * f (compute_value_of w T)) ∈
      compiledCircuit n w f := by
  have hcard : S.card ≤ n := by
    have := Finset.card_le_card hS
    rwa [Finset.card_range] at this
  have heq : compiledFun n w f S =
      ∑ T ∈ S.powerset,
        (-1 : ℚ) ^ (S.card - T.card) * f (compute_value_of w T) := by
    rw [compiledFun_eq_coeffRec w f hcard, coeffRec_eq_alt]
    rfl
  refine ⟨heq, ?_⟩
  rw [← heq]
  exact compiled_has_key w f hS

/-- Witness for C6 at `n = 2`, weights `[1, 2]`, target `v ↦ v²`, subset
`S = {0, 1}`. -/
theorem compiled_coefficient_is_mobius_sum_witness :
    ({0, 1} : Finset ℕ) ⊆ Finset.range 2 ∧
    (compiledFun 2 [1, 2] (fun v => v * v) {0, 1} =
      (∑ T ∈ ({0, 1} : Finset ℕ).powerset,
        (-1 : ℚ) ^ (({0, 1} : Finset ℕ).card - T.card) *
          (fun v => v * v) (compute_value_of [1, 2] T)) ∧
    (({0, 1} : Finset ℕ), ∑ T ∈ ({0, 1} : Finset ℕ).powerset,
        (-1 : ℚ) ^ (({0, 1} : Finset ℕ).card - T.card) *
          (fun v => v * v) (compute_value_of [1, 2] T)) ∈
      compiledCircuit 2 [1, 2] fun v => v * v) :=
  ⟨by decide,
    compiled_coefficient_is_mobius_sum 2 [1, 2] (fun v => v * v) {0, 1}
      (by decide)⟩

/-- C9 counterexample: the claim says the needs-recompilation flag is
false after `compile` returns regardless of its prior value; but after a
pruning call (which sets the flag) a direct `compile` leaves it true. -/
theorem compile_flag_counterexample :
    ((RotationCircuit.init [1] fun v => v).approximate_up_to_an_error_of
        0).compile.needs_recompilation = true := rfl

/-- C9 (amended): `compile` fully replaces the current circuit with the
exact one but leaves the needs-recompilation flag unchanged (the method
body never writes it); the flag is false after construction because
`__init__` clears it before compiling, and true after any pruning call. -/
theorem compile_replaces_table_and_preserves_flag :
    (∀ c : RotationCircuit,
      c.compile.circuit =
          compiledCircuit c.register_size c.bit_weigts c.function ∧
        c.compile.needs_recompilation = c.needs_recompilation) ∧
    (∀ (w : List ℚ) (f : ℚ → ℚ),
      (RotationCircuit.init w f).needs_recompilation = false) :=
  ⟨fun _ => ⟨rfl, rfl⟩, fun _ _ => rfl⟩

/-- C4 counterexample: the claim says a negative `maximum_toffoli_count`
prunes nothing; but on the engine compiled from weights `[1, 2]` and
target `v ↦ v²`, pruning with budget `−1` removes the stored expensive
entry for the control set `{0, 1}`. -/
theorem negative_cost_budget_counterexample :
    (({0, 1} : Finset ℕ),
        compiledFun 2 [1, 2] (fun v => v * v) {0, 1}) ∈
      (RotationCircuit.init [1, 2] fun v => v * v).circuit ∧
    (({0, 1} : Finset ℕ),
        compiledFun 2 [1, 2] (fun v => v * v) {0, 1}) ∉
      ((RotationCircuit.init [1, 2] fun v => v * v).approximate_up_to_toffoli_count_of
        (-1)).circuit := by
  constructor
  · exact compiled_has_key [1, 2] (fun v => v * v) (by decide)
  · intro hmem
    rw [show ((RotationCircuit.init [1, 2] fun v => v * v).approximate_up_to_toffoli_count_of
        (-1)).circuit =
        ((RotationCircuit.init [1, 2] fun v => v * v).circuit.filter
          fun gate => gate.1.card < 2) ++
          keptByToffoli (-1) 0
            (((RotationCircuit.init [1, 2] fun v => v * v).circuit.filter
                fun gate => 2 ≤ gate.1.card).mergeSort
              fun a b => decide (efficiency b ≤ efficiency a)) from rfl] at hmem
    rw [keptByToffoli_of_neg (by norm_num) _ ?hexp, List.append_nil] at hmem
    case hexp =>
      intro gate hg
      have hmem2 := (List.mergeSort_perm _ _).subset hg
      have := List.of_mem_filter hmem2
      simpa using this
    have := List.of_mem_filter hmem
    simp at this

/-- C4 (amended): on a table not requiring recompilation, a negative
`error_upper_bound` makes `approximate_up_to_an_error_of` remove no gate
(the stored entries are unchanged up to dictionary ordering), while a
negative `maximum_toffoli_count` makes `approximate_up_to_toffoli_count_of`
behave like a zero budget: it removes every expensive gate and keeps
exactly the cheap ones. -/
theorem negative_budget_pruning (c : RotationCircuit) (ε m : ℚ)
    (hε : ε < 0) (hm : m < 0) (hflag : c.needs_recompilation = false) :
    ((c.approximate_up_to_an_error_of ε).circuit).Perm c.circuit ∧
    (c.approximate_up_to_toffoli_count_of m).circuit =
      c.circuit.filter fun gate => gate.1.card < 2 := by
  have hifc : (if c.needs_recompilation = true then c.compile else c) = c := by
    rw [hflag]
    rfl
  constructor
  · have h1 : (c.approximate_up_to_an_error_of ε).circuit =
        (c.circuit.filter fun gate => gate.1.card < 2) ++
          dropWithinError ε 0
            ((c.circuit.filter fun gate => 2 ≤ gate.1.card).mergeSort
              fun a b => decide (efficiency a ≤ efficiency b)) := by
      show (let d := if c.needs_recompilation = true then c.compile else c
        (({ d with
            circuit := (d.circuit.filter fun gate => gate.1.card < 2) ++
              dropWithinError ε 0
                ((d.circuit.filter fun gate => 2 ≤ gate.1.card).mergeSort
                  fun a b => decide (efficiency a ≤ efficiency b))
            needs_recompilation := true } : RotationCircuit)).circuit) = _
      rw [hifc]
    rw [h1, dropWithinError_of_neg hε]
    exact (List.Perm.append_left _ (List.mergeSort_perm _ _)).trans
      (cheap_expensive_perm c.circuit)
  · have h2 : (c.approximate_up_to_toffoli_count_of m).circuit =
        (c.circuit.filter fun gate => gate.1.card < 2) ++
          keptByToffoli m 0
            ((c.circuit.filter fun gate => 2 ≤ gate.1.card).mergeSort
              fun a b => decide (efficiency b ≤ efficiency a)) := by
      show (let d := if c.needs_recompilation = true then c.compile else c
        (({ d with
            circuit := (d.circuit.filter fun gate => gate.1.card < 2) ++
              keptByToffoli m 0
                ((d.circuit.filter fun gate => 2 ≤ gate.1.card).mergeSort
                  fun a b => decide (efficiency b ≤ efficiency a))
            needs_recompilation := true } : RotationCircuit)).circuit) = _
      rw [hifc]
    rw [h2, keptByToffoli_of_neg hm _ ?hexp, List.append_nil]
    case hexp =>
      intro gate hg
      have hmem2 := (List.mergeSort_perm _ _).subset hg
      have := List.of_mem_filter hmem2
      simpa using this

/-- Witness for C4 (amended) at the engine compiled from weights `[1, 2]`
and target `v ↦ v²`, with both budgets `−1`. -/
theorem negative_budget_pruning_witness :
    (-1 : ℚ) < 0 ∧
    (RotationCircuit.init [1, 2] fun v => v * v).needs_recompilation = false ∧
    (((RotationCircuit.init [1, 2] fun v => v * v).approximate_up_to_an_error_of
        (-1)).circuit).Perm
      (RotationCircuit.init [1, 2] fun v => v * v).circuit ∧
    ((RotationCircuit.init [1, 2] fun v => v * v).approximate_up_to_toffoli_count_of
        (-1)).circuit =
      (RotationCircuit.init [1, 2] fun v => v * v).circuit.filter
        fun gate => gate.1.card < 2 := by
  obtain ⟨h1, h2⟩ :=
    negative_budget_pruning (RotationCircuit.init [1, 2] fun v => v * v)
      (-1) (-1) (by norm_num) (by norm_num) rfl
  exact ⟨by norm_num, rfl, h1, h2⟩

/-! ## Unfolding lemmas for the pruning entry points -/

lemma approx_error_unfold (c : RotationCircuit) (ε : ℚ)
    (hflag : c.needs_recompilation = false) :
    (c.approximate_up_to_an_error_of ε).circuit =
      (c.circuit.filter fun gate => gate.1.card < 2) ++
        dropWithinError ε 0
          ((c.circuit.filter fun gate => 2 ≤ gate.1.card).mergeSort
            fun a b => decide (efficiency a ≤ efficiency b)) := by
  have hifc : (if c.needs_recompilation = true then c.compile else c) = c := by
    rw [hflag]
    rfl
  show (let d := if c.needs_recompilation = true then c.compile else c
    (({ d with
        circuit := (d.circuit.filter fun gate => gate.1.card < 2) ++
          dropWithinError ε 0
            ((d.circuit.filter fun gate => 2 ≤ gate.1.card).mergeSort
              fun a b => decide (efficiency a ≤ efficiency b))
        needs_recompilation := true } : RotationCircuit)).circuit) = _
  rw [hifc]

lemma approx_toffoli_unfold (c : RotationCircuit) (m : ℚ)
    (hflag : c.needs_recompilation = false) :
    (c.approximate_up_to_toffoli_count_of m).circuit =
      (c.circuit.filter fun gate => gate.1.card < 2) ++
        keptByToffoli m 0
          ((c.circuit.filter fun gate => 2 ≤ gate.1.card).mergeSort
            fun a b => decide (efficiency b ≤ efficiency a)) := by
  have hifc : (if c.needs_recompilation = true then c.compile else c) = c := by
    rw [hflag]
    rfl
  show (let d := if c.needs_recompilation = true then c.compile else c
    (({ d with
        circuit := (d.circuit.filter fun gate => gate.1.card < 2) ++
          keptByToffoli m 0
            ((d.circuit.filter fun gate => 2 ≤ gate.1.card).mergeSort
              fun a b => decide (efficiency b ≤ efficiency a))
        needs_recompilation := true } : RotationCircuit)).circuit) = _
  rw [hifc]

/-- C7: neither pruning procedure ever removes a gate whose control set
has fewer than 2 qubits: for every `error_upper_bound` and every
`maximum_toffoli_count` (including 0), every gate of the pre-pruning
table with `|S| < 2` is present, with the same rotation value, in the
post-pruning table. -/
theorem pruning_preserves_cheap_gates (c : RotationCircuit) (ε m : ℚ)
    (gate : Gate) (hflag : c.needs_recompilation = false)
    (hmem : gate ∈ c.circuit) (hcheap : gate.1.card < 2) :
    gate ∈ (c.approximate_up_to_an_error_of ε).circuit ∧
    gate ∈ (c.approximate_up_to_toffoli_count_of m).circuit := by
  have hfil : gate ∈ c.circuit.filter fun g => g.1.card < 2 :=
    List.mem_filter.mpr ⟨hmem, by simpa using hcheap⟩
  constructor
  · rw [approx_error_unfold c ε hflag]
    exact List.mem_append_left _ hfil
  · rw [approx_toffoli_unfold c m hflag]
    exact List.mem_append_left _ hfil

/-- Witness for C7: the gate `(∅, f(0))`-entry of the engine compiled
from weights `[1, 2]` and target `v ↦ v²` survives both prunings with
budget 0. -/
theorem pruning_preserves_cheap_gates_witness :
    (RotationCircuit.init [1, 2] fun v => v * v).needs_recompilation = false ∧
    (((∅ : Finset ℕ), compiledFun 2 [1, 2] (fun v => v * v) ∅) ∈
      (RotationCircuit.init [1, 2] fun v => v * v).circuit) ∧
    ((∅ : Finset ℕ), compiledFun 2 [1, 2] (fun v => v * v) ∅).1.card < 2 ∧
    (((∅ : Finset ℕ), compiledFun 2 [1, 2] (fun v => v * v) ∅) ∈
      ((RotationCircuit.init [1, 2] fun v => v * v).approximate_up_to_an_error_of
        0).circuit) ∧
    (((∅ : Finset ℕ), compiledFun 2 [1, 2] (fun v => v * v) ∅) ∈
      ((RotationCircuit.init [1, 2] fun v => v * v).approximate_up_to_toffoli_count_of
        0).circuit) := by
  have hmem : ((∅ : Finset ℕ), compiledFun 2 [1, 2] (fun v => v * v) ∅) ∈
      (RotationCircuit.init [1, 2] fun v => v * v).circuit :=
    compiled_has_key [1, 2] (fun v => v * v) (Finset.empty_subset _)
  obtain ⟨h1, h2⟩ :=
    pruning_preserves_cheap_gates (RotationCircuit.init [1, 2] fun v => v * v)
      0 0 ((∅ : Finset ℕ), compiledFun 2 [1, 2] (fun v => v * v) ∅)
      rfl hmem (by decide)
  exact ⟨rfl, hmem, by decide, h1, h2⟩

/-- C3: for every `maximum_toffoli_count ≥ 0`, after the cost-budgeted
pruning the resulting table's total Toffoli count — the sum over all
stored gates of `max(2*(|S|−1), 0)` — is at most the budget. -/
theorem cost_budget_bound (c : RotationCircuit) (m : ℚ) (hm : 0 ≤ m) :
    toffoli_count (c.approximate_up_to_toffoli_count_of m).circuit ≤ m := by
  have hunfold : (c.approximate_up_to_toffoli_count_of m).circuit =
      ((if c.needs_recompilation = true then c.compile else c).circuit.filter
          fun gate => gate.1.card < 2) ++
        keptByToffoli m 0
          (((if c.needs_recompilation = true then c.compile else c).circuit.filter
              fun gate => 2 ≤ gate.1.card).mergeSort
            fun a b => decide (efficiency b ≤ efficiency a)) := rfl
  set d := if c.needs_recompilation = true then c.compile else c with hd
  set sorted := ((d.circuit.filter fun gate => 2 ≤ gate.1.card).mergeSort
    fun a b => decide (efficiency b ≤ efficiency a)) with hsorted
  rw [hunfold, toffoli_count, List.map_append, List.sum_append]
  have hcheap0 : ((d.circuit.filter fun gate => gate.1.card < 2).map
      fun gate => gateToffoli gate.1).sum = 0 := by
    apply List.sum_eq_zero
    intro x hx
    obtain ⟨g, hg, rfl⟩ := List.mem_map.mp hx
    have hlt : g.1.card < 2 := by simpa using List.of_mem_filter hg
    have hle : (g.1.card : ℚ) ≤ 1 := by
      exact_mod_cast Nat.lt_succ_iff.mp hlt
    rw [gateToffoli, max_eq_right (by linarith)]
  have hcongr : ((keptByToffoli m 0 sorted).map fun gate => gateToffoli gate.1) =
      (keptByToffoli m 0 sorted).map fun gate => 2 * ((gate.1.card : ℚ) - 1) := by
    apply List.map_congr_left
    intro g hg
    have h2 : 2 ≤ g.1.card := by
      simpa using List.of_mem_filter ((List.mergeSort_perm _ _).subset
        (kept_mem sorted hg))
    have h2q : (2 : ℚ) ≤ (g.1.card : ℚ) := by exact_mod_cast h2
    rw [gateToffoli, max_eq_left (by linarith)]
  rw [hcheap0, zero_add, hcongr]
  have := kept_cost_le sorted (a := 0) hm
  linarith

/-- Witness for C3 at the engine compiled from weights `[1, 2]` and
target `v ↦ v²`, with budget 0. -/
theorem cost_budget_bound_witness :
    (0 : ℚ) ≤ 0 ∧
    toffoli_count
        ((RotationCircuit.init [1, 2] fun v => v * v).approximate_up_to_toffoli_count_of
          0).circuit ≤ 0 :=
  ⟨le_refl 0,
    cost_budget_bound (RotationCircuit.init [1, 2] fun v => v * v) 0
      (le_refl 0)⟩

/-- C2: for every `error_upper_bound ≥ 0`, after the error-budgeted
pruning of a freshly compiled exact table, the sum of the absolute
rotation values of the removed gates is at most the budget, and for every
input subset `x` the deviation of the pruned table's evaluation from the
target function is at most that removed sum (hence at most the budget). -/
theorem error_budget_bound (c : RotationCircuit) (ε : ℚ) (hε : 0 ≤ ε)
    (hflag : c.needs_recompilation = false)
    (hfresh : c.circuit =
      compiledCircuit c.register_size c.bit_weigts c.function) :
    ((removedByError c ε).map fun gate => |gate.2|).sum ≤ ε ∧
    ∀ x ⊆ Finset.range c.register_size,
      |evaluate_at (c.approximate_up_to_an_error_of ε).circuit x -
          c.function (compute_value_of c.bit_weigts x)| ≤
        ((removedByError c ε).map fun gate => |gate.2|).sum := by
  set sorted := ((c.circuit.filter fun gate => 2 ≤ gate.1.card).mergeSort
    fun a b => decide (efficiency a ≤ efficiency b)) with hsorted
  have hrem : removedByError c ε = poppedByError ε 0 sorted := rfl
  constructor
  · rw [hrem]
    have := popped_sum_le sorted (a := 0) hε
    linarith
  · intro x hx
    have hexact : evaluate_at c.circuit x =
        c.function (compute_value_of c.bit_weigts x) := by
      rw [hfresh]
      exact evaluate_at_compiledCircuit _ _ hx
    have hperm : ((c.circuit.filter fun gate => gate.1.card < 2) ++
        (poppedByError ε 0 sorted ++ dropWithinError ε 0 sorted)).Perm
          c.circuit := by
      rw [popped_append_drop]
      exact (List.Perm.append_left _ (List.mergeSort_perm _ _)).trans
        (cheap_expensive_perm c.circuit)
    have hsum : evaluate_at c.circuit x =
        evaluate_at (c.circuit.filter fun gate => gate.1.card < 2) x +
          (evaluate_at (poppedByError ε 0 sorted) x +
            evaluate_at (dropWithinError ε 0 sorted) x) := by
      rw [← evaluate_at_perm hperm x, evaluate_at_append, evaluate_at_append]
    have key : evaluate_at (c.circuit.filter fun gate => gate.1.card < 2) x +
        evaluate_at (dropWithinError ε 0 sorted) x -
          c.function (compute_value_of c.bit_weigts x) =
        -(evaluate_at (poppedByError ε 0 sorted) x) := by
      rw [← hexact, hsum]
      ring
    rw [approx_error_unfold c ε hflag, evaluate_at_append, key, abs_neg, hrem]
    exact abs_evaluate_at_le (poppedByError ε 0 sorted) x

/-- Witness for C2 at the engine compiled from weights `[1, 2]` and
target `v ↦ v²`, with budget 5, evaluated at `x = {0, 1}`. -/
theorem error_budget_bound_witness :
    (0 : ℚ) ≤ 5 ∧
    (RotationCircuit.init [1, 2] fun v => v * v).needs_recompilation = false ∧
    (RotationCircuit.init [1, 2] fun v => v * v).circuit =
      compiledCircuit
        (RotationCircuit.init [1, 2] fun v => v * v).register_size
        (RotationCircuit.init [1, 2] fun v => v * v).bit_weigts
        (RotationCircuit.init [1, 2] fun v => v * v).function ∧
    ((removedByError (RotationCircuit.init [1, 2] fun v => v * v) 5).map
        fun gate => |gate.2|).sum ≤ 5 ∧
    ({0, 1} : Finset ℕ) ⊆
      Finset.range (RotationCircuit.init [1, 2] fun v => v * v).register_size ∧
    |evaluate_at
        ((RotationCircuit.init [1, 2] fun v => v * v).approximate_up_to_an_error_of
          5).circuit {0, 1} -
        (RotationCircuit.init [1, 2] fun v => v * v).function
          (compute_value_of
            (RotationCircuit.init [1, 2] fun v => v * v).bit_weigts {0, 1})| ≤
      ((removedByError (RotationCircuit.init [1, 2] fun v => v * v) 5).map
        fun gate => |gate.2|).sum := by
  obtain ⟨h1, h2⟩ :=
    error_budget_bound (RotationCircuit.init [1, 2] fun v => v * v) 5
      (by norm_num) rfl rfl
  exact ⟨by norm_num, rfl, rfl, h1, by decide, h2 {0, 1} (by decide)⟩

/-- C5: every pruning call applied to a state whose table came from a
prior pruning call first rebuilds the exact table (the prior call set the
recompilation flag, so the guard recompiles); consequently two pruning
calls in sequence give exactly the state the second call would give
applied directly after a `compile`. -/
theorem second_prune_equals_prune_after_compile (o₁ o₂ : PruneOp)
    (c : RotationCircuit) :
    applyPrune o₂ (applyPrune o₁ c) = applyPrune o₂ c.compile := by
  cases o₁ <;> cases o₂ <;>
    cases hc : c.needs_recompilation <;>
      simp [applyPrune, RotationCircuit.approximate_up_to_an_error_of,
        RotationCircuit.approximate_up_to_toffoli_count_of,
        RotationCircuit.compile, hc]

/-- C8: `compute_error_statistics` returns exactly the mean over all
`2^n` input subsets of the absolute error `|evaluate(x) − f(value(x))|`,
the maximum of that error over all subsets, and an input subset that
achieves the returned maximum. -/
theorem error_statistics_spec (c : RotationCircuit) :
    c.compute_error_statistics.1 =
      (∑ x ∈ (Finset.range c.register_size).powerset, current_error_at c x) /
        2 ^ c.register_size ∧
    (∀ x ⊆ Finset.range c.register_size,
      current_error_at c x ≤ c.compute_error_statistics.2.1) ∧
    current_error_at c c.compute_error_statistics.2.2 =
      c.compute_error_statistics.2.1 ∧
    c.compute_error_statistics.2.2 ⊆ Finset.range c.register_size := by
  obtain ⟨h1, h2, h3, h4, h5⟩ :=
    errStep_foldl_spec c (possible_inputs c.register_size) 0 0 ∅ 0 (le_refl 0)
  have hstats : c.compute_error_statistics =
      (((possible_inputs c.register_size).foldl (errStep c) (0, 0, ∅, 0)).1 /
        ((((possible_inputs c.register_size).foldl (errStep c)
          (0, 0, ∅, 0)).2.2.2 : ℕ) : ℚ),
       ((possible_inputs c.register_size).foldl (errStep c) (0, 0, ∅, 0)).2.1,
       ((possible_inputs c.register_size).foldl (errStep c)
         (0, 0, ∅, 0)).2.2.1) := rfl
  refine ⟨?_, ?_, ?_, ?_⟩
  · rw [hstats, h1, h2, zero_add, zero_add, length_possible_inputs,
      sum_map_possible_inputs]
    push_cast
    rfl
  · intro x hx
    rw [hstats]
    exact h4 x (mem_possible_inputs.mpr hx)
  · rw [hstats]
    rcases h5 with ⟨hm0, hpos⟩ | ⟨hmem, heq⟩
    · rw [hpos, hm0]
      have hle := h4 ∅ (mem_possible_inputs.mpr (Finset.empty_subset _))
      rw [hm0] at hle
      exact le_antisymm hle (current_error_at_nonneg c ∅)
    · exact heq
  · rw [hstats]
    rcases h5 with ⟨_, hpos⟩ | ⟨hmem, _⟩
    · rw [hpos]
      exact Finset.empty_subset _
    · exact mem_possible_inputs.mp hmem

lemma approx_error_register_size (c : RotationCircuit) (ε : ℚ) :
    (c.approximate_up_to_an_error_of ε).register_size = c.register_size := by
  cases hc : c.needs_recompilation <;>
    simp [RotationCircuit.approximate_up_to_an_error_of,
      RotationCircuit.compile, hc]

lemma approx_toffoli_register_size (c : RotationCircuit) (m : ℚ) :
    (c.approximate_up_to_toffoli_count_of m).register_size =
      c.register_size := by
  cases hc : c.needs_recompilation <;>
    simp [RotationCircuit.approximate_up_to_toffoli_count_of,
      RotationCircuit.compile, hc]

lemma approx_error_unfold_true (c : RotationCircuit) (ε : ℚ)
    (hflag : c.needs_recompilation = true) :
    (c.approximate_up_to_an_error_of ε).circuit =
      ((compiledCircuit c.register_size c.bit_weigts c.function).filter
          fun gate => gate.1.card < 2) ++
        dropWithinError ε 0
          (((compiledCircuit c.register_size c.bit_weigts c.function).filter
              fun gate => 2 ≤ gate.1.card).mergeSort
            fun a b => decide (efficiency a ≤ efficiency b)) := by
  have hifc : (if c.needs_recompilation = true then c.compile else c) =
      c.compile := by
    rw [hflag]
    rfl
  show (let d := if c.needs_recompilation = true then c.compile else c
    (({ d with
        circuit := (d.circuit.filter fun gate => gate.1.card < 2) ++
          dropWithinError ε 0
            ((d.circuit.filter fun gate => 2 ≤ gate.1.card).mergeSort
              fun a b => decide (efficiency a ≤ efficiency b))
        needs_recompilation := true } : RotationCircuit)).circuit) = _
  rw [hifc]
  rfl

lemma approx_toffoli_unfold_true (c : RotationCircuit) (m : ℚ)
    (hflag : c.needs_recompilation = true) :
    (c.approximate_up_to_toffoli_count_of m).circuit =
      ((compiledCircuit c.register_size c.bit_weigts c.function).filter
          fun gate => gate.1.card < 2) ++
        keptByToffoli m 0
          (((compiledCircuit c.register_size c.bit_weigts c.function).filter
              fun gate => 2 ≤ gate.1.card).mergeSort
            fun a b => decide (efficiency b ≤ efficiency a)) := by
  have hifc : (if c.needs_recompilation = true then c.compile else c) =
      c.compile := by
    rw [hflag]
    rfl
  show (let d := if c.needs_recompilation = true then c.compile else c
    (({ d with
        circuit := (d.circuit.filter fun gate => gate.1.card < 2) ++
          keptByToffoli m 0
            ((d.circuit.filter fun gate => 2 ≤ gate.1.card).mergeSort
              fun a b => decide (efficiency b ≤ efficiency a))
        needs_recompilation := true } : RotationCircuit)).circuit) = _
  rw [hifc]
  rfl

/-- C10: in every state reachable by construction followed by any
sequence of `compile` and pruning calls, the current table has an entry
for the empty set and for every singleton `{i}` with `i < n`; in
particular it is never empty, so the `np.max` in `update_circuit_size`
(the ancilla count) is always well-defined. -/
theorem reachable_state_keeps_cheap_keys (c : RotationCircuit)
    (h : Reachable c) :
    (∃ q, ((∅ : Finset ℕ), q) ∈ c.circuit) ∧
    (∀ i < c.register_size, ∃ q, (({i} : Finset ℕ), q) ∈ c.circuit) ∧
    c.circuit ≠ [] ∧ (ancilla_count c.circuit).isSome := by
  have hfin : ∀ d : RotationCircuit,
      (∃ q, ((∅ : Finset ℕ), q) ∈ d.circuit) →
      (∀ i < d.register_size, ∃ q, (({i} : Finset ℕ), q) ∈ d.circuit) →
      (∃ q, ((∅ : Finset ℕ), q) ∈ d.circuit) ∧
        (∀ i < d.register_size, ∃ q, (({i} : Finset ℕ), q) ∈ d.circuit) ∧
        d.circuit ≠ [] ∧ (ancilla_count d.circuit).isSome := by
    intro d hd1 hd2
    obtain ⟨q, hq⟩ := hd1
    have hne : d.circuit ≠ [] := List.ne_nil_of_mem hq
    exact ⟨⟨q, hq⟩, hd2, hne, ancilla_count_isSome hne⟩
  have hcompiled : ∀ (n : ℕ) (w : List ℚ) (f : ℚ → ℚ),
      (∃ q, ((∅ : Finset ℕ), q) ∈ compiledCircuit n w f) ∧
      (∀ i < n, ∃ q, (({i} : Finset ℕ), q) ∈ compiledCircuit n w f) := by
    intro n w f
    refine ⟨⟨compiledFun n w f ∅,
      compiled_has_key w f (Finset.empty_subset _)⟩, ?_⟩
    intro i hi
    exact ⟨compiledFun n w f {i}, compiled_has_key w f
      (Finset.singleton_subset_iff.mpr (Finset.mem_range.mpr hi))⟩
  induction h with
  | init w f =>
    obtain ⟨h1, h2⟩ := hcompiled w.length w f
    exact hfin _ h1 h2
  | compile hr ih =>
    obtain ⟨h1, h2⟩ := hcompiled _ _ _
    exact hfin _ h1 h2
  | pruneError ε hr ih =>
    rename_i d
    obtain ⟨ih1, ih2, _, _⟩ := ih
    refine hfin _ ?_ ?_
    · cases hflag : d.needs_recompilation with
      | false =>
        rw [approx_error_unfold d ε hflag]
        obtain ⟨q, hq⟩ := ih1
        exact ⟨q, List.mem_append_left _
          (List.mem_filter.mpr ⟨hq, by simp⟩)⟩
      | true =>
        rw [approx_error_unfold_true d ε hflag]
        obtain ⟨⟨q, hq⟩, _⟩ :=
          hcompiled d.register_size d.bit_weigts d.function
        exact ⟨q, List.mem_append_left _
          (List.mem_filter.mpr ⟨hq, by simp⟩)⟩
    · intro i hi
      rw [approx_error_register_size] at hi
      cases hflag : d.needs_recompilation with
      | false =>
        rw [approx_error_unfold d ε hflag]
        obtain ⟨q, hq⟩ := ih2 i hi
        exact ⟨q, List.mem_append_left _
          (List.mem_filter.mpr ⟨hq, by simp⟩)⟩
      | true =>
        rw [approx_error_unfold_true d ε hflag]
        obtain ⟨_, h2⟩ := hcompiled d.register_size d.bit_weigts d.function
        obtain ⟨q, hq⟩ := h2 i hi
        exact ⟨q, List.mem_append_left _
          (List.mem_filter.mpr ⟨hq, by simp⟩)⟩
  | pruneCost m hr ih =>
    rename_i d
    obtain ⟨ih1, ih2, _, _⟩ := ih
    refine hfin _ ?_ ?_
    · cases hflag : d.needs_recompilation with
      | false =>
        rw [approx_toffoli_unfold d m hflag]
        obtain ⟨q, hq⟩ := ih1
        exact ⟨q, List.mem_append_left _
          (List.mem_filter.mpr ⟨hq, by simp⟩)⟩
      | true =>
        rw [approx_toffoli_unfold_true d m hflag]
        obtain ⟨⟨q, hq⟩, _⟩ :=
          hcompiled d.register_size d.bit_weigts d.function
        exact ⟨q, List.mem_append_left _
          (List.mem_filter.mpr ⟨hq, by simp⟩)⟩
    · intro i hi
      rw [approx_toffoli_register_size] at hi
      cases hflag : d.needs_recompilation with
      | false =>
        rw [approx_toffoli_unfold d m hflag]
        obtain ⟨q, hq⟩ := ih2 i hi
        exact ⟨q, List.mem_append_left _
          (List.mem_filter.mpr ⟨hq, by simp⟩)⟩
      | true =>
        rw [approx_toffoli_unfold_true d m hflag]
        obtain ⟨_, h2⟩ := hcompiled d.register_size d.bit_weigts d.function
        obtain ⟨q, hq⟩ := h2 i hi
        exact ⟨q, List.mem_append_left _
          (List.mem_filter.mpr ⟨hq, by simp⟩)⟩

/-- Witness for C10 at the engine constructed from weights `[1]` and the
identity target function. -/
theorem reachable_state_keeps_cheap_keys_witness :
    (∃ q, ((∅ : Finset ℕ), q) ∈
      (RotationCircuit.init [1] fun v => v).circuit) ∧
    (∀ i < (RotationCircuit.init [1] fun v => v).register_size,
      ∃ q, (({i} : Finset ℕ), q) ∈
        (RotationCircuit.init [1] fun v => v).circuit) ∧
    (RotationCircuit.init [1] fun v => v).circuit ≠ [] ∧
    (ancilla_count (RotationCircuit.init [1] fun v => v).circuit).isSome :=
  reachable_state_keeps_cheap_keys (RotationCircuit.init [1] fun v => v)
    (Reachable.init [1] fun v => v)
